import Mathlib

/-!
Verification of the queue-hopper venue occupancy counter.

The repository has two variants of the app:
* `src/club-counter-demo/src/App.tsx` — the event-sourced React demo
  (ledger of immutable events, projection, sync merge, offline queue);
* `src/script.js` — the vanilla counter (history list, daily rollover,
  undo, forecast).

This file gives a shallow embedding of both cores.  Conventions:
* JS numbers holding integral values are modelled as `Int` (occupancy,
  deltas) or `Nat` (timestamps);
* `Array.prototype.sort` with the comparator `(a, b) => a.ts - b.ts` is,
  per the ECMAScript specification, a *stable* sort; a stable sort by a
  fixed key is a unique function of the input list, so we model it by
  `List.insertionSort` on the key `ts` (structural, hence computable);
* JS float arithmetic in the forecast is modelled over `ℚ`;
  `Math.round x` is `⌊x + 1/2⌋`, which is Mathlib's `round`;
* timestamps in `App.tsx` are milliseconds since epoch, in `script.js`
  we use minutes since epoch (the source stores ISO strings and compares
  their date parts; days are `t / 1440`); local time is taken equal to
  UTC.
-/

namespace QueueHopper

/-! ## Data model of the App.tsx ledger -/

/-- `type Role = "Doorman" | "Manager" | "Marshal"`. -/
inductive Role
  | Doorman
  | Manager
  | Marshal
deriving DecidableEq

/-- Payload of a `LedgerEvent`, one case per `type` tag:
`IN`/`OUT` carry `amount`, `SET`/`CAPACITY` carry `value`,
`ADJUST` carries `delta`. -/
inductive EventKind
  | IN (amount : Int)
  | OUT (amount : Int)
  | SET (value : Int)
  | CAPACITY (value : Int)
  | ADJUST (delta : Int)
deriving DecidableEq

/-- The `LedgerEvent` union type of `App.tsx`. -/
structure LedgerEvent where
  id : String
  ts : Nat
  kind : EventKind
  deviceId : String
  door : String
  role : Role
  reason : Option String
deriving DecidableEq

/-- Comparator key order used by every `.sort((a, b) => a.ts - b.ts)`
in the source. -/
def tsLE (a b : LedgerEvent) : Prop := a.ts ≤ b.ts

instance : DecidableRel tsLE := fun a b => Nat.decLe a.ts b.ts

instance : IsTotal LedgerEvent tsLE := ⟨fun a b => Nat.le_total a.ts b.ts⟩

instance : IsTrans LedgerEvent tsLE := ⟨fun _ _ _ h h' => Nat.le_trans h h'⟩

/-- Strict version of the comparator order, used to identify sorted
permutations when all timestamps are distinct. -/
def tsLT (a b : LedgerEvent) : Prop := a.ts < b.ts

instance : IsAntisymm LedgerEvent tsLT :=
  ⟨fun _ _ h h' => absurd h' (Nat.not_lt.mpr (Nat.le_of_lt h))⟩

/-- Model of JS stable `sort((a, b) => a.ts - b.ts)`. -/
def sortTs (l : List LedgerEvent) : List LedgerEvent :=
  l.insertionSort tsLE

/-- One step of the occupancy/capacity fold in `computeStateFromLedger`
(the body of its `for` loop; the state is `(occupancy, capacity)`). -/
def applyCurrent (s : Int × Int) (e : LedgerEvent) : Int × Int :=
  match e.kind with
  | .IN a => (s.1 + a, s.2)
  | .OUT a => (s.1 - a, s.2)
  | .ADJUST d => (s.1 + d, s.2)
  | .SET v => (v, s.2)
  | .CAPACITY v => (s.1, v)

/-- Projected state returned by `computeStateFromLedger`. -/
structure ProjState where
  occupancy : Int
  capacity : Int
deriving DecidableEq

/-- `computeStateFromLedger(ledger, defaultCapacity = 200)`: sort by
`ts`, fold the events, clamp the final occupancy at `0`. -/
def computeStateFromLedger (ledger : List LedgerEvent) (defaultCapacity : Int) : ProjState :=
  let p := (sortTs ledger).foldl applyCurrent (0, defaultCapacity)
  ⟨max 0 p.1, p.2⟩

/-- Modelled from the spec: the occupancy component of `projectCurrent`,
a left-to-right fold where `Entry` adds its amount, `Exit` subtracts,
`Adjust` adds its signed delta and `SetAbsolute` overwrites. -/
def specOccStep (occ : Int) (e : LedgerEvent) : Int :=
  match e.kind with
  | .IN a => occ + a
  | .OUT a => occ - a
  | .ADJUST d => occ + d
  | .SET v => v
  | .CAPACITY _ => occ

/-- Modelled from the spec: the capacity component of `projectCurrent`,
overwritten only by `SetCapacity` events. -/
def specCapStep (cap : Int) (e : LedgerEvent) : Int :=
  match e.kind with
  | .CAPACITY v => v
  | _ => cap

/-- Modelled from the spec: `projectCurrent(events, defaultCapacity)`,
a fold over the time-ordered events with the final occupancy clamped
to be nonnegative. -/
def projectCurrentSpec (events : List LedgerEvent) (defaultCapacity : Int) : ProjState :=
  ⟨max 0 ((sortTs events).foldl specOccStep 0),
   (sortTs events).foldl specCapStep defaultCapacity⟩

/-! ## Sync merge operations (App.tsx) -/

/-- `applyRemoteEvent(event)`: dedupe by id (`prev.some(e => e.id === event.id)`),
otherwise append and re-sort by `ts`. -/
def applyRemoteEvent (prev : List LedgerEvent) (event : LedgerEvent) : List LedgerEvent :=
  if prev.any (fun e => decide (e.id = event.id)) then prev
  else sortTs (prev ++ [event])

/-- JS `Map.prototype.set` on an insertion-ordered association list:
an existing key keeps its position and gets the new value, a new key is
appended. -/
def mapSet (m : List (String × LedgerEvent)) (k : String) (v : LedgerEvent) :
    List (String × LedgerEvent) :=
  match m with
  | [] => [(k, v)]
  | (k', v') :: rest => if k' = k then (k, v) :: rest else (k', v') :: mapSet rest k v

/-- `new Map(prev.map(e => [e.id, e]))`. -/
def jsMapOfLedger (prev : List LedgerEvent) : List (String × LedgerEvent) :=
  prev.foldl (fun m e => mapSet m e.id e) []

/-- JS `Map.prototype.has`. -/
def mapHas (m : List (String × LedgerEvent)) (k : String) : Bool :=
  m.any (fun p => decide (p.1 = k))

/-- Body of `for (const r of remote) if (!map.has(r.id)) map.set(r.id, r)`:
setting an absent key appends it. -/
def mergeStep (m : List (String × LedgerEvent)) (r : LedgerEvent) :
    List (String × LedgerEvent) :=
  if mapHas m r.id then m else m ++ [(r.id, r)]

/-- `mergeRemoteLedger(remote)` acting on the previous ledger `prev`:
build the id-keyed map from `prev`, add unseen remote events, take
`Array.from(map.values())` (insertion order) and sort by `ts`. -/
def mergeRemoteLedger (prev remote : List LedgerEvent) : List LedgerEvent :=
  sortTs ((remote.foldl mergeStep (jsMapOfLedger prev)).map Prod.snd)

/-- The ledger effect of `addEvent(event)` (identical in the offline and
online branches): append without any dedupe, then sort by `ts`. -/
def addEventLedger (prev : List LedgerEvent) (event : LedgerEvent) : List LedgerEvent :=
  sortTs (prev ++ [event])

/-! ## Delivery model for merge convergence (claim C2) -/

/-- A merge delivery: a single-event `EVENT` message handled by
`applyRemoteEvent`, or a full-ledger `SNAPSHOT` handled by
`mergeRemoteLedger`. -/
inductive SyncMsg
  | event (e : LedgerEvent)
  | snapshot (l : List LedgerEvent)
deriving DecidableEq

/-- Handling one received message. -/
def applyMsg (st : List LedgerEvent) : SyncMsg → List LedgerEvent
  | .event e => applyRemoteEvent st e
  | .snapshot l => mergeRemoteLedger st l

/-- An instance's ledger after receiving `msgs` in order, starting empty. -/
def runMsgs (msgs : List SyncMsg) : List LedgerEvent :=
  msgs.foldl applyMsg []

/-- The events carried by one message. -/
def msgEvents : SyncMsg → List LedgerEvent
  | .event e => [e]
  | .snapshot l => l

/-- `msgs` delivers exactly the event set `S`: every carried event is
drawn from `S`, and every event of `S` is carried by some message. -/
def Delivers (msgs : List SyncMsg) (S : List LedgerEvent) : Prop :=
  (∀ m ∈ msgs, ∀ e ∈ msgEvents m, e ∈ S) ∧ (∀ e ∈ S, ∃ m ∈ msgs, e ∈ msgEvents m)

instance (msgs : List SyncMsg) (S : List LedgerEvent) : Decidable (Delivers msgs S) :=
  inferInstanceAs (Decidable (_ ∧ _))

/-- All event ids are pairwise distinct (origin-unique ids). -/
def IdsNodup (l : List LedgerEvent) : Prop := (l.map (fun e => e.id)).Nodup

instance (l : List LedgerEvent) : Decidable (IdsNodup l) :=
  inferInstanceAs (Decidable (List.Nodup _))

/-- All event timestamps are pairwise distinct. -/
def TsNodup (l : List LedgerEvent) : Prop := (l.map (fun e => e.ts)).Nodup

instance (l : List LedgerEvent) : Decidable (TsNodup l) :=
  inferInstanceAs (Decidable (List.Nodup _))

/-- Sortedness by the `ts` comparator. -/
def SortedTs (l : List LedgerEvent) : Prop := List.Sorted tsLE l

instance (l : List LedgerEvent) : Decidable (SortedTs l) :=
  inferInstanceAs (Decidable (List.Pairwise tsLE l))

/-! ## Local UI state and button handlers (App.tsx) -/

/-- The pieces of local instance state touched by `addEvent` and the
IN/OUT handlers: the ledger, the offline `pendingQueue`, the events
broadcast on the channel, and the persisted `localStorage` snapshot. -/
structure SyncState where
  ledger : List LedgerEvent
  pending : List LedgerEvent
  broadcasts : List LedgerEvent
  stored : Option (List LedgerEvent)
deriving DecidableEq

/-- `addEvent(event)`: offline — queue locally and update/persist the
ledger without broadcasting; online — broadcast, then update/persist. -/
def addEvent (offline : Bool) (s : SyncState) (event : LedgerEvent) : SyncState :=
  if offline then
    { s with pending := s.pending ++ [event],
             ledger := sortTs (s.ledger ++ [event]),
             stored := some (sortTs (s.ledger ++ [event])) }
  else
    { s with broadcasts := s.broadcasts ++ [event],
             ledger := sortTs (s.ledger ++ [event]),
             stored := some (sortTs (s.ledger ++ [event])) }

/-- `const canEnter = !oneInOneOut || occupancy < capacity || role === "Manager"`. -/
def canEnter (oneInOneOut : Bool) (occupancy capacity : Int) (role : Role) : Bool :=
  !oneInOneOut || decide (occupancy < capacity) || decide (role = Role.Manager)

/-- `const canExit = true`. -/
def canExit : Bool := true

/-- `const isMarshal = role === "Marshal"`. -/
def isMarshal (role : Role) : Bool := decide (role = Role.Marshal)

/-- The IN event built by the IN button handler:
`{ id: uid(), ts: Date.now(), type: "IN", amount: 1, deviceId, door, role }`. -/
def mkInEvent (newId : String) (now : Nat) (deviceId door : String) (role : Role) :
    LedgerEvent :=
  ⟨newId, now, .IN 1, deviceId, door, role, none⟩

/-- The OUT event built by the OUT button handler. -/
def mkOutEvent (newId : String) (now : Nat) (deviceId door : String) (role : Role) :
    LedgerEvent :=
  ⟨newId, now, .OUT 1, deviceId, door, role, none⟩

/-- The IN button `onClick`: `if (!canEnter || isMarshal) return;` then
`addEvent({... type: "IN", amount: 1 ...})`.  Occupancy and capacity are
the projection of the current ledger with default capacity 200. -/
def inButtonClick (oneInOneOut offline : Bool) (role : Role)
    (deviceId door newId : String) (now : Nat) (s : SyncState) : SyncState :=
  let proj := computeStateFromLedger s.ledger 200
  if !(canEnter oneInOneOut proj.occupancy proj.capacity role) || isMarshal role then s
  else addEvent offline s (mkInEvent newId now deviceId door role)

/-- The OUT button `onClick`: `if (!canExit || isMarshal) return;` then
`addEvent({... type: "OUT", amount: 1 ...})`. -/
def outButtonClick (offline : Bool) (role : Role)
    (deviceId door newId : String) (now : Nat) (s : SyncState) : SyncState :=
  if !canExit || isMarshal role then s
  else addEvent offline s (mkOutEvent newId now deviceId door role)

/-! ## Historical series (App.tsx `buildActualSeries`) -/

/-- Occupancy update for one event in `buildActualSeries` (the four `if`
statements of its loops; `CAPACITY` events leave occupancy unchanged). -/
def applySeriesEvent (occ : Int) (e : LedgerEvent) : Int :=
  match e.kind with
  | .IN a => occ + a
  | .OUT a => occ - a
  | .ADJUST d => occ + d
  | .SET v => v
  | .CAPACITY _ => occ

/-- The main sampling loop of `buildActualSeries`: at each boundary,
shift-and-apply the queued events with `ts ≤` the boundary, then record
the clamped running occupancy.  `n` is the number of samples left. -/
def seriesAux (step : Nat) : Nat → Nat → List LedgerEvent → Int → List (Nat × Int)
  | _, 0, _, _ => []
  | ts, Nat.succ n, evts, occ =>
    let occ' := (evts.takeWhile (fun e => decide (e.ts ≤ ts))).foldl applySeriesEvent occ
    let rest := evts.dropWhile (fun e => decide (e.ts ≤ ts))
    (ts, max 0 occ') :: seriesAux step (ts + step) n rest occ'

/-- `buildActualSeries(ledger, startTs, hours = 6, intervalMin = 5)`.
The initialization `for` loop applies every event with `ts ≤ startTs`
(`break` on the first later one) but does not consume it from `evts`;
the sampling loop then starts from the full `evts` queue. -/
def buildActualSeries (ledger : List LedgerEvent) (startTs : Nat)
    (hours intervalMin : Nat) : List (Nat × Int) :=
  let totalPoints := hours * 60 / intervalMin
  let evts := sortTs ledger
  let occ0 := (evts.takeWhile (fun e => decide (e.ts ≤ startTs))).foldl applySeriesEvent 0
  seriesAux (intervalMin * 60 * 1000) startTs (totalPoints + 1) evts occ0

/-- Modelled from the spec: `projectSeries` — one sample per bucket
boundary across the window; the occupancy at a boundary `t` replays, in
timestamp order, exactly the events with `ts ≤ t`, each applied once,
clamped at `0`. -/
def projectSeriesSpec (ledger : List LedgerEvent) (startTs : Nat)
    (hours bucketMin : Nat) : List (Nat × Int) :=
  (List.range (hours * 60 / bucketMin + 1)).map (fun i =>
    let t := startTs + i * (bucketMin * 60 * 1000)
    (t, max 0 (((sortTs ledger).filter (fun e => decide (e.ts ≤ t))).foldl
      applySeriesEvent 0)))

/-! ## The vanilla counter (script.js) -/

/-- One `state.history` entry `{timestamp, delta, total}`; the ISO
timestamp string is modelled as minutes since epoch (UTC), so the date
part of the string is the day index `ts / 1440`. -/
structure HistEntry where
  ts : Nat
  delta : Int
  total : Int
deriving DecidableEq

/-- `state.daily = { in, out, peak, peakTime }` (the `in`/`out` fields are
named `din`/`dout` here because `in` is reserved). -/
structure Daily where
  din : Int
  dout : Int
  peak : Int
  peakTime : Option Nat
deriving DecidableEq

/-- The zeroed running aggregate `{ in: 0, out: 0, peak: 0, peakTime: null }`. -/
def emptyDaily : Daily := ⟨0, 0, 0, none⟩

/-- One archived report `{date, inn, ut, peak, peakTime}`; the ISO date
string key is modelled as a day index. -/
structure Report where
  date : Nat
  inn : Int
  ut : Int
  peak : Int
  peakTime : Option Nat
deriving DecidableEq

/-- The global `state` object of script.js.  `resetTime` is the parsed
`"HH:MM"` pair `(resetH, resetM)`; `lastReset` is the stored rollover
instant in minutes since epoch (`null` modelled as `none`). -/
structure ScriptState where
  count : Int
  capacity : Int
  history : List HistEntry
  resetH : Nat
  resetM : Nat
  lastReset : Option Nat
  role : String
  theme : String
  reports : List Report
  daily : Daily
deriving DecidableEq

/-- `logEvent(delta)`: push `{timestamp: now, delta, total: state.count}`,
bump `daily.in`/`daily.out`, and raise the peak when the current total
exceeds it. -/
def logEvent (s : ScriptState) (delta : Int) (now : Nat) : ScriptState :=
  let total := s.count
  let s1 := { s with history := s.history ++ [(⟨now, delta, total⟩ : HistEntry)] }
  let s2 :=
    if delta > 0 then { s1 with daily := { s1.daily with din := s1.daily.din + delta } }
    else { s1 with daily := { s1.daily with dout := s1.daily.dout - delta } }
  if total > s2.daily.peak then
    { s2 with daily := { s2.daily with peak := total, peakTime := some now } }
  else s2

/-- `register(delta)`: refuse a negative resulting count, otherwise update
the count and log the event. -/
def register (s : ScriptState) (delta : Int) (now : Nat) : ScriptState :=
  let newCount := s.count + delta
  if newCount < 0 then s
  else logEvent { s with count := newCount } delta now

/-- One `forEach` step of `recomputeDailyStats`: entries dated today feed
the in/out totals and the peak. -/
def dailyStep (today : Nat) (d : Daily) (e : HistEntry) : Daily :=
  if e.ts / 1440 = today then
    let d1 :=
      if e.delta > 0 then { d with din := d.din + e.delta }
      else { d with dout := d.dout - e.delta }
    if e.total > d1.peak then { d1 with peak := e.total, peakTime := some e.ts } else d1
  else d

/-- `recomputeDailyStats()`: rebuild `state.daily` from the history
entries of the current day. -/
def recomputeDailyStats (history : List HistEntry) (today : Nat) : Daily :=
  history.foldl (dailyStep today) emptyDaily

/-- `undoLast()`: pop the last history entry; the count becomes the
`total` of the new last entry (`0` when the history empties) and the
daily aggregate is recomputed from the remaining history. -/
def undoLast (s : ScriptState) (today : Nat) : ScriptState :=
  match s.history.getLast? with
  | none => s
  | some _ =>
    let h := s.history.dropLast
    { s with history := h,
             count := match h.getLast? with | some e => e.total | none => 0,
             daily := recomputeDailyStats h today }

/-- The reset instant of `now`'s calendar day:
`new Date(y, m, d, resetH, resetM)` in minutes since epoch. -/
def resetInstant (now : Nat) (h m : Nat) : Nat :=
  now / 1440 * 1440 + (h * 60 + m)

/-- `finalizeReport(resetTime)`: archive a report keyed by the calendar
date preceding `resetTime`, holding the running daily aggregate, then
zero the aggregate. -/
def finalizeReport (s : ScriptState) (resetTime : Nat) : ScriptState :=
  { s with reports := s.reports ++
      [⟨resetTime / 1440 - 1, s.daily.din, s.daily.dout, s.daily.peak, s.daily.peakTime⟩],
           daily := emptyDaily }

/-- `performDailyResetIfNeeded()`: when `now` has passed today's reset
instant and the last recorded rollover precedes it, finalize the report,
zero the count and record the rollover instant; otherwise do nothing.
A missing `lastReset` is `new Date(0)`, i.e. `0`. -/
def performDailyResetIfNeeded (s : ScriptState) (now : Nat) : ScriptState :=
  let resetToday := resetInstant now s.resetH s.resetM
  if resetToday ≤ now ∧ s.lastReset.getD 0 < resetToday then
    let s1 := finalizeReport s resetToday
    { s1 with count := 0, lastReset := some resetToday }
  else s

/-! ## Startup loading (claim C8) -/

/-- The fields a persisted script.js snapshot may carry; `Object.assign`
copies exactly the present ones. -/
structure PersistedFields where
  count : Option Int
  capacity : Option Int
  history : Option (List HistEntry)
  resetH : Option Nat
  resetM : Option Nat
  lastReset : Option (Option Nat)
  role : Option String
  theme : Option String
  reports : Option (List Report)
  daily : Option Daily
deriving DecidableEq

/-- The initial `state` literal of script.js. -/
def initialScriptState : ScriptState :=
  ⟨0, 1, [], 0, 0, none, "guard", "light", [], emptyDaily⟩

/-- `Object.assign(state, parsed)`. -/
def objectAssign (s : ScriptState) (p : PersistedFields) : ScriptState :=
  { count := p.count.getD s.count,
    capacity := p.capacity.getD s.capacity,
    history := p.history.getD s.history,
    resetH := p.resetH.getD s.resetH,
    resetM := p.resetM.getD s.resetM,
    lastReset := p.lastReset.getD s.lastReset,
    role := p.role.getD s.role,
    theme := p.theme.getD s.theme,
    reports := p.reports.getD s.reports,
    daily := p.daily.getD s.daily }

/-- The defaulting lines after the assign (`state.role = state.role || ...`);
the falsy string is the empty one. -/
def applyLoadDefaults (s : ScriptState) : ScriptState :=
  let s1 := if s.role = "" then { s with role := "guard" } else s
  if s1.theme = "" then { s1 with theme := "light" } else s1

/-- `loadState()`.  `saved` is the stored value composed with the outcome
of `JSON.parse`: `none` when nothing is stored, `some (.error ())` when
the stored string is unparseable (`JSON.parse` throws — script.js has no
`try`/`catch`, so the exception propagates out of `loadState`), and
`some (.ok p)` when it parses. -/
def loadState (saved : Option (Except Unit PersistedFields)) : Except Unit ScriptState :=
  match saved with
  | none => .ok (applyLoadDefaults initialScriptState)
  | some (.error e) => .error e
  | some (.ok p) => .ok (applyLoadDefaults (objectAssign initialScriptState p))

/-- The `useState` initializer of the App.tsx ledger:
`try { return JSON.parse(localStorage.getItem(LEDGER_KEY) || "[]") }
catch { return [] }`.  A missing stored value parses as the empty array;
a parse failure is caught and falls back to `[]`. -/
def ledgerInitializer (stored : Option (Except Unit (List LedgerEvent))) :
    List LedgerEvent :=
  match stored.getD (Except.ok []) with
  | .ok l => l
  | .error _ => []

/-! ## Forecast (script.js `computeForecast`, claim C9) -/

/-- `getDay()` of a timestamp in minutes since epoch (the Unix epoch was
a Thursday, weekday 4; local time taken as UTC). -/
def jsWeekday (t : Nat) : Nat := (t / 1440 + 4) % 7

/-- The 5-minute bucket index `floor((hours*60 + minutes) / 5)`. -/
def bucketIdx (t : Nat) : Nat := t % 1440 / 5

/-- Update of the JS `groups` object at one key: bump `{sum, count}` in
place, or create `{sum: delta, count: 1}`.  The string key
`` `${wd}-${idx}` `` is modelled by the pair `(wd, idx)`. -/
def bumpGroup : List ((Nat × Nat) × (Int × Nat)) → Nat × Nat → Int →
    List ((Nat × Nat) × (Int × Nat))
  | [], k, d => [(k, (d, 1))]
  | (k', v) :: rest, k, d =>
    if k' = k then (k', (v.1 + d, v.2 + 1)) :: rest else (k', v) :: bumpGroup rest k d

/-- The `groups` object after the `forEach` over the history. -/
def buildGroups (history : List HistEntry) : List ((Nat × Nat) × (Int × Nat)) :=
  history.foldl (fun g e => bumpGroup g (jsWeekday e.ts, bucketIdx e.ts) e.delta) []

/-- Association-list lookup (JS property access `groups[key]`). -/
def lookupGroup (g : List ((Nat × Nat) × (Int × Nat))) (k : Nat × Nat) :
    Option (Int × Nat) :=
  match g with
  | [] => none
  | (k', v) :: rest => if k' = k then some v else lookupGroup rest k

/-- `computeForecast()`: `null` on empty history; otherwise the count plus
the summed mean deltas of the next 12 five-minute buckets of the current
weekday, rounded (`Math.round x = ⌊x + 1/2⌋`, which is `round` on `ℚ`). -/
def computeForecast (history : List HistEntry) (count : Int) (now : Nat) : Option Int :=
  if history = [] then none
  else
    let weekday := jsWeekday now
    let currentInterval := now % 1440 / 5
    let groups := buildGroups history
    let expectedChange : ℚ := (List.range 12).foldl (fun acc i =>
      match lookupGroup groups (weekday, (currentInterval + (i + 1)) % 288) with
      | some v => acc + (v.1 : ℚ) / (v.2 : ℚ)
      | none => acc) 0
    some (round ((count : ℚ) + expectedChange))

/-- Modelled from the spec: the mean historical delta of the
`(weekday, bucket)` group, `0` for an empty group. -/
def meanDelta (history : List HistEntry) (k : Nat × Nat) : ℚ :=
  let es := history.filter (fun e => decide ((jsWeekday e.ts, bucketIdx e.ts) = k))
  if es.length = 0 then 0
  else (((es.map (fun e => e.delta)).sum : Int) : ℚ) / (es.length : ℚ)

/-- Modelled from the spec: the forecast — none on empty history,
otherwise the current count plus the sum over the next 12 buckets of the
mean historical delta, rounded to the nearest integer. -/
def forecastSpec (history : List HistEntry) (count : Int) (now : Nat) : Option Int :=
  if history = [] then none
  else
    some (round ((count : ℚ) + ((List.range 12).map (fun i =>
      meanDelta history (jsWeekday now, (now % 1440 / 5 + (i + 1)) % 288))).sum))

/-! ## Proof scaffolding definitions -/

/-- Invariant of a local ledger while receiving events drawn from the
set `S`: sorted by `ts`, origin-unique ids, and a subset of `S`. -/
def LedgerInv (S st : List LedgerEvent) : Prop :=
  SortedTs st ∧ IdsNodup st ∧ ∀ e ∈ st, e ∈ S

/-- Accumulate a run of history entries into an optional `{sum, count}`
group cell (the effect of successive `bumpGroup`s at one key). -/
def addAll (o : Option (Int × Nat)) (es : List HistEntry) : Option (Int × Nat) :=
  es.foldl (fun o e => some (match o with
    | none => (e.delta, 1)
    | some v => (v.1 + e.delta, v.2 + 1))) o

/-! ## Concrete inputs for witnesses and counterexamples -/

/-- Two events sharing a timestamp (counterexample input for C2). -/
def c2tieIn : LedgerEvent := ⟨"a", 0, .IN 1, "devA", "Door A", .Doorman, none⟩

/-- Second event of the C2 tie, a `SET` at the same timestamp. -/
def c2tieSet : LedgerEvent := ⟨"b", 0, .SET 5, "devB", "Door B", .Manager, none⟩

/-- Two events with distinct timestamps (witness input for C2). -/
def c2dA : LedgerEvent := ⟨"a", 10, .IN 2, "devA", "Door A", .Doorman, none⟩

/-- Second distinct-timestamp event for the C2 witness. -/
def c2dB : LedgerEvent := ⟨"b", 5, .CAPACITY 50, "devB", "Door B", .Manager, none⟩

/-- A concrete event used to exercise duplicate appends (C3). -/
def dupEvt : LedgerEvent := ⟨"a", 0, .IN 1, "dev", "Door A", .Doorman, none⟩

/-- An empty local instance state. -/
def emptySync : SyncState := ⟨[], [], [], none⟩

/-- A local instance whose projection is at capacity: one `CAPACITY 0`
event gives occupancy `0` and capacity `0`. -/
def atCapSync : SyncState :=
  ⟨[⟨"c", 0, .CAPACITY 0, "dev", "Door A", .Manager, none⟩], [], [], none⟩

/-- A script.js state about to roll over: midnight reset, no recorded
rollover, and a running aggregate `{in: 40, out: 35, peak: 12}`. -/
def c4state : ScriptState :=
  ⟨7, 100, [], 0, 0, none, "guard", "light", [], ⟨40, 35, 12, some 100⟩⟩

/-- A script.js state with a two-entry history (witness input for C7). -/
def c7state : ScriptState :=
  ⟨2, 100, [⟨10, 1, 1⟩, ⟨20, 1, 2⟩], 0, 0, none, "guard", "light", [], ⟨2, 0, 2, some 20⟩⟩

end QueueHopper

namespace QueueHopper

/-! ## Theorems for claim C1 -/

theorem foldl_applyCurrent_eq (l : List LedgerEvent) (p : Int × Int) :
    l.foldl applyCurrent p = (l.foldl specOccStep p.1, l.foldl specCapStep p.2) := by
  induction l generalizing p with
  | nil => rfl
  | cons e rest ih =>
    simp only [List.foldl_cons]
    rw [ih]
    cases p with
    | mk occ cap =>
      cases e with
      | mk id ts kind dev door role reason =>
        cases kind <;> rfl

/-- C1: `computeStateFromLedger` is exactly the spec's left-to-right fold
over the timestamp-ordered events (`IN` adds, `OUT` subtracts, `ADJUST`
adds its delta, `SET` overwrites occupancy, `CAPACITY` overwrites
capacity) with the final occupancy clamped at `0`; the returned occupancy
is never negative; and the scenario `Entry(+5)`, `Exit(+3)`, `Adjust(-1)`
projects to occupancy `1`. -/
theorem C1_projectCurrent_fold_clamp :
    (∀ (l : List LedgerEvent) (d : Int),
      computeStateFromLedger l d = projectCurrentSpec l d) ∧
    (∀ (l : List LedgerEvent) (d : Int),
      0 ≤ (computeStateFromLedger l d).occupancy) ∧
    computeStateFromLedger
      [⟨"e1", 1, .IN 5, "dev", "Door A", .Doorman, none⟩,
       ⟨"e2", 2, .OUT 3, "dev", "Door A", .Doorman, none⟩,
       ⟨"e3", 3, .ADJUST (-1), "dev", "Door A", .Manager, none⟩] 200 =
      ⟨1, 200⟩ := by
  refine ⟨fun l d => ?_, fun l d => ?_, by decide⟩
  · unfold computeStateFromLedger projectCurrentSpec
    rw [foldl_applyCurrent_eq]
  · unfold computeStateFromLedger
    exact le_max_left 0 _

/-! ## Basic facts about the stable sort -/

theorem sortTs_perm (l : List LedgerEvent) : List.Perm (sortTs l) l :=
  List.perm_insertionSort tsLE l

theorem mem_sortTs {x : LedgerEvent} {l : List LedgerEvent} : x ∈ sortTs l ↔ x ∈ l :=
  (sortTs_perm l).mem_iff

theorem sortTs_sorted (l : List LedgerEvent) : SortedTs (sortTs l) :=
  List.sorted_insertionSort tsLE l

theorem sortTs_of_sorted {l : List LedgerEvent} (h : SortedTs l) : sortTs l = l :=
  h.insertionSort_eq

/-! ## Theorems for claim C10 -/

/-- C10: with the Marshal role selected, the IN and OUT handlers return
before calling `addEvent`: the whole local state — ledger, offline
pending queue, broadcast channel and persisted snapshot — is unchanged. -/
theorem C10_marshal_readonly (oneInOneOut offline : Bool) (role : Role)
    (deviceId door newId : String) (now : Nat) (s : SyncState)
    (h : role = Role.Marshal) :
    inButtonClick oneInOneOut offline role deviceId door newId now s = s ∧
    outButtonClick offline role deviceId door newId now s = s := by
  subst h
  constructor
  · simp [inButtonClick, isMarshal]
  · simp [outButtonClick, isMarshal]

theorem C10_marshal_readonly_witness :
    inButtonClick true false Role.Marshal "dev" "Door A" "id1" 1 emptySync = emptySync ∧
    outButtonClick false Role.Marshal "dev" "Door A" "id1" 1 emptySync = emptySync :=
  C10_marshal_readonly true false Role.Marshal "dev" "Door A" "id1" 1 emptySync rfl

/-! ## Theorems for claim C5 -/

/-- C5 is false as stated: its last conjunct says a below-capacity IN by
any non-privileged (non-Manager) role appends an IN event, but the
Marshal role is blocked unconditionally — on the empty ledger
(occupancy 0 < capacity 200) a Marshal IN appends nothing. -/
theorem C5_counterexample_marshal_below_capacity :
    (computeStateFromLedger emptySync.ledger 200).occupancy <
      (computeStateFromLedger emptySync.ledger 200).capacity ∧
    Role.Marshal ≠ Role.Manager ∧
    inButtonClick true false Role.Marshal "dev" "Door A" "id1" 1 emptySync = emptySync := by
  decide

/-- C5 (amended): with one-in/one-out enabled and occupancy at or above
capacity an IN by any non-Manager role appends nothing; a Manager IN
always goes through to `addEvent`; below capacity a Doorman IN goes
through; and a Marshal IN never appends regardless of occupancy. -/
theorem C5_amended_gating (oneInOneOut offline : Bool)
    (deviceId door newId : String) (now : Nat) (s : SyncState) :
    (∀ role : Role, oneInOneOut = true →
      (computeStateFromLedger s.ledger 200).capacity ≤
        (computeStateFromLedger s.ledger 200).occupancy →
      role ≠ Role.Manager →
      inButtonClick oneInOneOut offline role deviceId door newId now s = s) ∧
    (inButtonClick oneInOneOut offline Role.Manager deviceId door newId now s =
      addEvent offline s (mkInEvent newId now deviceId door Role.Manager)) ∧
    ((computeStateFromLedger s.ledger 200).occupancy <
        (computeStateFromLedger s.ledger 200).capacity →
      inButtonClick oneInOneOut offline Role.Doorman deviceId door newId now s =
        addEvent offline s (mkInEvent newId now deviceId door Role.Doorman)) ∧
    (inButtonClick oneInOneOut offline Role.Marshal deviceId door newId now s = s) := by
  refine ⟨fun role hoio hcap hrole => ?_, ?_, fun hocc => ?_, ?_⟩
  · have h1 : decide ((computeStateFromLedger s.ledger 200).occupancy <
        (computeStateFromLedger s.ledger 200).capacity) = false :=
      decide_eq_false (not_lt.mpr hcap)
    have h2 : decide (role = Role.Manager) = false := decide_eq_false hrole
    cases role with
    | Doorman => simp [inButtonClick, canEnter, isMarshal, hoio, h1]
    | Manager => exact absurd rfl hrole
    | Marshal => simp [inButtonClick, isMarshal]
  · simp [inButtonClick, canEnter, isMarshal]
  · have h1 : decide ((computeStateFromLedger s.ledger 200).occupancy <
        (computeStateFromLedger s.ledger 200).capacity) = true := decide_eq_true hocc
    simp [inButtonClick, canEnter, isMarshal, h1]
  · simp [inButtonClick, isMarshal]

theorem C5_amended_gating_witness :
    inButtonClick true false Role.Doorman "dev" "Door A" "id1" 1 atCapSync = atCapSync ∧
    inButtonClick true false Role.Doorman "dev" "Door A" "id1" 1 emptySync =
      addEvent false emptySync (mkInEvent "id1" 1 "dev" "Door A" Role.Doorman) :=
  ⟨(C5_amended_gating true false "dev" "Door A" "id1" 1 atCapSync).1 Role.Doorman rfl
      (by decide) (by decide),
   (C5_amended_gating true false "dev" "Door A" "id1" 1 emptySync).2.2.1 (by decide)⟩

/-! ## Theorem for claim C6 -/

/-- C6 (code bug): `buildActualSeries` applies every event with
`ts ≤ startTs` twice — once in its initialization loop, which does not
consume the events from `evts`, and again when the first bucket boundary
(`ts = startTs`) shifts them off the queue.  For the single event `IN 1`
at time `0` with `startTs = 0` the series reports occupancy `2` at the
first boundary, while replaying the events with `ts ≤` the boundary
exactly once (the spec's `projectSeries`) gives `1`. -/
theorem C6_buildActualSeries_double_count :
    (buildActualSeries [dupEvt] 0 1 5).head? = some (0, 2) ∧
    (projectSeriesSpec [dupEvt] 0 1 5).head? = some (0, 1) ∧
    buildActualSeries [dupEvt] 0 1 5 ≠ projectSeriesSpec [dupEvt] 0 1 5 := by
  decide

/-! ## Theorems for claim C7 -/

/-- C7: after `undoLast` on a nonempty history, the count equals the
`total` recorded by the new last history entry (or `0` when the history
becomes empty) and the running daily aggregate equals the fresh
recomputation from the remaining entries of the current day. -/
theorem C7_undo_correctness (s : ScriptState) (today : Nat)
    (h : s.history ≠ []) :
    (undoLast s today).history = s.history.dropLast ∧
    (undoLast s today).count =
      (match s.history.dropLast.getLast? with
       | some e => e.total
       | none => 0) ∧
    (undoLast s today).daily = recomputeDailyStats s.history.dropLast today := by
  cases hl : s.history.getLast? with
  | none => exact absurd (List.getLast?_eq_none_iff.mp hl) h
  | some x => simp [undoLast, hl]

theorem C7_undo_correctness_witness :
    (undoLast c7state 0).count =
      (match c7state.history.dropLast.getLast? with
       | some e => e.total
       | none => 0) ∧
    (undoLast c7state 0).daily = recomputeDailyStats c7state.history.dropLast 0 :=
  ⟨(C7_undo_correctness c7state 0 (by decide)).2.1,
   (C7_undo_correctness c7state 0 (by decide)).2.2⟩

/-! ## Theorems for claim C8 -/

/-- C8 is false as stated: script.js's `loadState` wraps `JSON.parse` in
no `try`/`catch`, so a corrupt stored value does not fall back to
defaults — the parse error propagates out of `loadState` and startup
fails. -/
theorem C8_counterexample_loadState_throws :
    loadState (some (Except.error ())) = Except.error () := rfl

/-- C8 (amended): the App.tsx ledger initializer is total and falls back
to the empty ledger on a missing or unparseable stored value, but
script.js's `loadState` only handles a missing value — a corrupt stored
value propagates the `JSON.parse` exception instead of being
discarded. -/
theorem C8_amended_load_fallback :
    (∀ err : Unit, ledgerInitializer (some (Except.error err)) = []) ∧
    (∀ l, ledgerInitializer (some (Except.ok l)) = l) ∧
    ledgerInitializer none = [] ∧
    (∀ err : Unit, loadState (some (Except.error err)) = Except.error err) ∧
    loadState none = Except.ok (applyLoadDefaults initialScriptState) ∧
    (∀ p, loadState (some (Except.ok p)) =
      Except.ok (applyLoadDefaults (objectAssign initialScriptState p))) :=
  ⟨fun _ => rfl, fun _ => rfl, rfl, fun _ => rfl, rfl, fun _ => rfl⟩

/-! ## Theorems for claim C4 -/

/-- C4: when `now` is at or past today's reset instant and the recorded
last rollover precedes that instant, the rollover fires exactly once:
one report is archived, keyed by the calendar day preceding the reset
instant and holding the pre-rollover running daily totals-in/out/peak;
the running aggregate is zeroed, the count reset, and the rollover
instant recorded; and any further check before the next calendar
boundary (the next day's reset instant) changes nothing. -/
theorem C4_rollover_fires_once (s : ScriptState) (now : Nat)
    (hh : s.resetH < 24) (hm : s.resetM < 60)
    (h1 : resetInstant now s.resetH s.resetM ≤ now)
    (h2 : s.lastReset.getD 0 < resetInstant now s.resetH s.resetM) :
    (performDailyResetIfNeeded s now).reports =
      s.reports ++ [⟨now / 1440 - 1, s.daily.din, s.daily.dout, s.daily.peak,
        s.daily.peakTime⟩] ∧
    (performDailyResetIfNeeded s now).daily = emptyDaily ∧
    (performDailyResetIfNeeded s now).count = 0 ∧
    (performDailyResetIfNeeded s now).lastReset =
      some (resetInstant now s.resetH s.resetM) ∧
    (performDailyResetIfNeeded s now).history = s.history ∧
    ∀ now', now ≤ now' →
      now' < (now / 1440 + 1) * 1440 + (s.resetH * 60 + s.resetM) →
      performDailyResetIfNeeded (performDailyResetIfNeeded s now) now' =
        performDailyResetIfNeeded s now := by
  have hday : resetInstant now s.resetH s.resetM / 1440 = now / 1440 := by
    unfold resetInstant
    omega
  have hfire : performDailyResetIfNeeded s now =
      { s with
        reports := s.reports ++ [Report.mk (resetInstant now s.resetH s.resetM / 1440 - 1) s.daily.din s.daily.dout s.daily.peak s.daily.peakTime]
        daily := emptyDaily
        count := 0
        lastReset := some (resetInstant now s.resetH s.resetM) } := by
    unfold performDailyResetIfNeeded finalizeReport
    rw [if_pos ⟨h1, h2⟩]
  rw [hfire, hday]
  refine ⟨rfl, rfl, rfl, rfl, rfl, fun now' hge hlt => ?_⟩
  unfold performDailyResetIfNeeded
  rw [if_neg]
  intro hcond
  obtain ⟨ha, hb⟩ := hcond
  dsimp only at ha hb
  rw [Option.getD_some] at hb
  unfold resetInstant at h1 ha hb
  omega

theorem C4_rollover_fires_once_witness :
    (performDailyResetIfNeeded c4state 1440).reports =
      c4state.reports ++ [⟨1440 / 1440 - 1, c4state.daily.din, c4state.daily.dout,
        c4state.daily.peak, c4state.daily.peakTime⟩] ∧
    (performDailyResetIfNeeded c4state 1440).daily = emptyDaily ∧
    (performDailyResetIfNeeded c4state 1440).lastReset =
      some (resetInstant 1440 c4state.resetH c4state.resetM) :=
  ⟨(C4_rollover_fires_once c4state 1440 (by decide) (by decide) (by decide) (by decide)).1,
   (C4_rollover_fires_once c4state 1440 (by decide) (by decide) (by decide) (by decide)).2.1,
   (C4_rollover_fires_once c4state 1440 (by decide) (by decide) (by decide)
      (by decide)).2.2.2.1⟩

/-! ## Association-map lemmas for the merge operations -/

theorem mapSet_of_not_has (m : List (String × LedgerEvent)) (k : String) (v : LedgerEvent)
    (h : mapHas m k = false) : mapSet m k v = m ++ [(k, v)] := by
  induction m with
  | nil => rfl
  | cons p rest ih =>
    obtain ⟨k', v'⟩ := p
    have h' : decide (k' = k) = false ∧ mapHas rest k = false := by
      simpa [mapHas, List.any_cons] using h
    have hne : ¬k' = k := of_decide_eq_false h'.1
    simp only [mapSet, if_neg hne, List.cons_append, List.cons.injEq, true_and]
    exact ih h'.2

theorem foldl_mapSet_eq (l : List LedgerEvent) :
    ∀ m : List (String × LedgerEvent),
    (∀ e ∈ l, mapHas m e.id = false) → IdsNodup l →
    l.foldl (fun m e => mapSet m e.id e) m = m ++ l.map (fun e => (e.id, e)) := by
  induction l with
  | nil => intro m _ _; simp
  | cons e rest ih =>
    intro m hfresh hnodup
    have hn : e.id ∉ rest.map (fun x => x.id) ∧ IdsNodup rest := by
      simpa [IdsNodup, List.nodup_cons] using hnodup
    simp only [List.foldl_cons]
    rw [mapSet_of_not_has m e.id e (hfresh e (by simp))]
    rw [ih (m ++ [(e.id, e)]) ?fresh hn.2]
    · simp
    case fresh =>
      intro x hx
      have hxm : mapHas m x.id = false := hfresh x (by simp [hx])
      have hne : decide (e.id = x.id) = false := by
        refine decide_eq_false fun heq => hn.1 ?_
        exact heq ▸ List.mem_map.mpr ⟨x, hx, rfl⟩
      simp [mapHas, List.any_append, List.any_cons] at hxm ⊢
      exact ⟨hxm, fun hc => by simp [hc] at hne⟩

theorem jsMapOfLedger_eq (l : List LedgerEvent) (h : IdsNodup l) :
    jsMapOfLedger l = l.map (fun e => (e.id, e)) := by
  have := foldl_mapSet_eq l [] (fun _ _ => rfl) h
  simpa [jsMapOfLedger] using this

theorem foldl_mergeStep_no_new (remote : List LedgerEvent) :
    ∀ m, (∀ r ∈ remote, mapHas m r.id = true) → remote.foldl mergeStep m = m := by
  induction remote with
  | nil => intro m _; rfl
  | cons r rest ih =>
    intro m h
    simp only [List.foldl_cons, mergeStep, if_pos (h r (by simp))]
    exact ih m fun x hx => h x (by simp [hx])

/-! ## Theorems for claim C3 -/

/-- C3 is false as stated: `addEvent` performs no dedupe by id, so
re-appending an event that is already in the ledger duplicates its
entry; with the ledger `[IN 1]`, re-appending the same event changes the
projected occupancy from `1` to `2`. -/
theorem C3_counterexample_addEvent_duplicate :
    dupEvt ∈ [dupEvt] ∧
    addEventLedger [dupEvt] dupEvt = [dupEvt, dupEvt] ∧
    computeStateFromLedger (addEventLedger [dupEvt] dupEvt) 200 ≠
      computeStateFromLedger [dupEvt] 200 := by
  decide

/-- C3 (amended): re-merging an already-present event is a no-op —
`applyRemoteEvent` returns the ledger unchanged and `mergeRemoteLedger`
with already-present events returns it unchanged (hence both leave the
projection unchanged) — while re-appending through `addEvent` leaves
the ledger unchanged only as a *set*: it duplicates the entry, and the
projection may change. -/
theorem C3_amended_idempotent_merge (L remote : List LedgerEvent) (e : LedgerEvent)
    (d : Int) (he : e ∈ L) (hrm : ∀ r ∈ remote, r ∈ L)
    (hid : IdsNodup L) (hsort : SortedTs L) :
    applyRemoteEvent L e = L ∧
    mergeRemoteLedger L remote = L ∧
    (∀ x, x ∈ addEventLedger L e ↔ x ∈ L) ∧
    computeStateFromLedger (applyRemoteEvent L e) d = computeStateFromLedger L d ∧
    computeStateFromLedger (mergeRemoteLedger L remote) d = computeStateFromLedger L d := by
  have happly : applyRemoteEvent L e = L := by
    unfold applyRemoteEvent
    rw [if_pos (List.any_eq_true.mpr ⟨e, he, by simp⟩)]
  have hmerge : mergeRemoteLedger L remote = L := by
    unfold mergeRemoteLedger
    rw [jsMapOfLedger_eq L hid, foldl_mergeStep_no_new remote _ ?has]
    · rw [List.map_map, show (Prod.snd ∘ fun e : LedgerEvent => (e.id, e)) = id from rfl,
        List.map_id]
      exact sortTs_of_sorted hsort
    case has =>
      intro r hr
      refine List.any_eq_true.mpr ⟨(r.id, r), List.mem_map.mpr ⟨r, hrm r hr, rfl⟩, by simp⟩
  refine ⟨happly, hmerge, fun x => ?_, by rw [happly], by rw [hmerge]⟩
  rw [addEventLedger, mem_sortTs, List.mem_append, List.mem_singleton]
  exact ⟨fun h => h.elim id (fun hx => hx ▸ he), Or.inl⟩

theorem C3_amended_idempotent_merge_witness :
    applyRemoteEvent [dupEvt] dupEvt = [dupEvt] ∧
    mergeRemoteLedger [dupEvt] [dupEvt] = [dupEvt] :=
  ⟨(C3_amended_idempotent_merge [dupEvt] [dupEvt] dupEvt 200 (by decide)
      (by decide) (by decide) (by decide)).1,
   (C3_amended_idempotent_merge [dupEvt] [dupEvt] dupEvt 200 (by decide)
      (by decide) (by decide) (by decide)).2.1⟩

/-! ## Invariant lemmas for merge convergence (claim C2) -/

theorem idsNodup_of_perm {l l' : List LedgerEvent} (h : List.Perm l l')
    (hn : IdsNodup l) : IdsNodup l' := by
  unfold IdsNodup at hn ⊢
  exact ((h.map (fun e => e.id)).nodup_iff).mp hn

theorem applyRemoteEvent_superset {prev : List LedgerEvent} (ev : LedgerEvent)
    {x : LedgerEvent} (hx : x ∈ prev) : x ∈ applyRemoteEvent prev ev := by
  unfold applyRemoteEvent
  by_cases h : prev.any (fun e => decide (e.id = ev.id)) = true
  · rw [if_pos h]; exact hx
  · rw [if_neg h]; exact mem_sortTs.mpr (List.mem_append.mpr (Or.inl hx))

theorem applyRemoteEvent_sub {prev : List LedgerEvent} {ev x : LedgerEvent}
    (hx : x ∈ applyRemoteEvent prev ev) : x ∈ prev ∨ x = ev := by
  unfold applyRemoteEvent at hx
  by_cases h : prev.any (fun e => decide (e.id = ev.id)) = true
  · rw [if_pos h] at hx; exact Or.inl hx
  · rw [if_neg h] at hx
    rcases List.mem_append.mp (mem_sortTs.mp hx) with h1 | h1
    · exact Or.inl h1
    · exact Or.inr (List.mem_singleton.mp h1)

theorem applyRemoteEvent_mem {S prev : List LedgerEvent} {ev : LedgerEvent}
    (hidS : IdsNodup S) (hsub : ∀ y ∈ prev, y ∈ S) (hev : ev ∈ S) :
    ev ∈ applyRemoteEvent prev ev := by
  unfold applyRemoteEvent
  by_cases h : prev.any (fun e => decide (e.id = ev.id)) = true
  · rw [if_pos h]
    obtain ⟨x, hx, hxid⟩ := List.any_eq_true.mp h
    have hxe : x = ev :=
      List.inj_on_of_nodup_map hidS (hsub x hx) hev (of_decide_eq_true hxid)
    exact hxe ▸ hx
  · rw [if_neg h]
    exact mem_sortTs.mpr (List.mem_append.mpr (Or.inr (List.mem_singleton.mpr rfl)))

theorem applyRemoteEvent_sorted {prev : List LedgerEvent} (ev : LedgerEvent)
    (h : SortedTs prev) : SortedTs (applyRemoteEvent prev ev) := by
  unfold applyRemoteEvent
  by_cases hc : prev.any (fun e => decide (e.id = ev.id)) = true
  · rw [if_pos hc]; exact h
  · rw [if_neg hc]; exact sortTs_sorted _

theorem applyRemoteEvent_idsNodup {prev : List LedgerEvent} {ev : LedgerEvent}
    (h : IdsNodup prev) : IdsNodup (applyRemoteEvent prev ev) := by
  unfold applyRemoteEvent
  by_cases hc : prev.any (fun e => decide (e.id = ev.id)) = true
  · rw [if_pos hc]; exact h
  · rw [if_neg hc]
    refine idsNodup_of_perm (sortTs_perm _).symm ?_
    have hnot : ev.id ∉ prev.map (fun e => e.id) := by
      intro hmem
      obtain ⟨x, hx, hxid⟩ := List.mem_map.mp hmem
      exact hc (List.any_eq_true.mpr ⟨x, hx, decide_eq_true hxid⟩)
    unfold IdsNodup at h ⊢
    rw [List.map_append]
    simp [List.nodup_append, h, hnot]

theorem foldl_mergeStep_superset (remote : List LedgerEvent) :
    ∀ (m : List (String × LedgerEvent)) (p : String × LedgerEvent), p ∈ m →
      p ∈ remote.foldl mergeStep m := by
  induction remote with
  | nil => intro m p hp; exact hp
  | cons r rest ih =>
    intro m p hp
    simp only [List.foldl_cons]
    refine ih (mergeStep m r) p ?_
    unfold mergeStep
    by_cases h : mapHas m r.id = true
    · rw [if_pos h]; exact hp
    · rw [if_neg h]; exact List.mem_append.mpr (Or.inl hp)

theorem foldl_mergeStep_sub (remote : List LedgerEvent) :
    ∀ (m : List (String × LedgerEvent)) (p : String × LedgerEvent),
      p ∈ remote.foldl mergeStep m →
      p ∈ m ∨ (p.2 ∈ remote ∧ p.1 = p.2.id) := by
  induction remote with
  | nil => intro m p hp; exact Or.inl hp
  | cons r rest ih =>
    intro m p hp
    simp only [List.foldl_cons] at hp
    rcases ih (mergeStep m r) p hp with h1 | h1
    · unfold mergeStep at h1
      by_cases h : mapHas m r.id = true
      · rw [if_pos h] at h1; exact Or.inl h1
      · rw [if_neg h] at h1
        rcases List.mem_append.mp h1 with h2 | h2
        · exact Or.inl h2
        · rw [List.mem_singleton.mp h2]
          exact Or.inr ⟨List.mem_cons_self r rest, rfl⟩
    · exact Or.inr ⟨List.mem_cons_of_mem r h1.1, h1.2⟩

theorem foldl_mergeStep_keysMatch (remote : List LedgerEvent) :
    ∀ m, (∀ p ∈ m, p.1 = p.2.id) →
      ∀ p ∈ remote.foldl mergeStep m, p.1 = p.2.id := by
  induction remote with
  | nil => intro m hm; exact hm
  | cons r rest ih =>
    intro m hm
    simp only [List.foldl_cons]
    refine ih (mergeStep m r) ?_
    intro p hp
    unfold mergeStep at hp
    by_cases h : mapHas m r.id = true
    · rw [if_pos h] at hp; exact hm p hp
    · rw [if_neg h] at hp
      rcases List.mem_append.mp hp with h2 | h2
      · exact hm p h2
      · rw [List.mem_singleton.mp h2]

theorem foldl_mergeStep_keysNodup (remote : List LedgerEvent) :
    ∀ m, (m.map Prod.fst).Nodup →
      ((remote.foldl mergeStep m).map Prod.fst).Nodup := by
  induction remote with
  | nil => intro m hm; exact hm
  | cons r rest ih =>
    intro m hm
    simp only [List.foldl_cons]
    refine ih (mergeStep m r) ?_
    unfold mergeStep
    by_cases h : mapHas m r.id = true
    · rw [if_pos h]; exact hm
    · rw [if_neg h]
      have hfr : r.id ∉ m.map Prod.fst := by
        intro hmem
        obtain ⟨p, hp, hpid⟩ := List.mem_map.mp hmem
        exact h (List.any_eq_true.mpr ⟨p, hp, decide_eq_true hpid⟩)
      rw [List.map_append]
      simp [List.nodup_append, hm, hfr]

theorem foldl_mergeStep_mem {S : List LedgerEvent} (hidS : IdsNodup S)
    (remote : List LedgerEvent) :
    ∀ m, (∀ p ∈ m, p.1 = p.2.id) → (∀ p ∈ m, p.2 ∈ S) → (∀ x ∈ remote, x ∈ S) →
      ∀ r ∈ remote, r ∈ (remote.foldl mergeStep m).map Prod.snd := by
  induction remote with
  | nil => intro m _ _ _ r hr; exact absurd hr (List.not_mem_nil r)
  | cons r0 rest ih =>
    intro m hkm hvs hrs r hr
    simp only [List.foldl_cons]
    have hkm' : ∀ p ∈ mergeStep m r0, p.1 = p.2.id := by
      intro p hp
      unfold mergeStep at hp
      by_cases h : mapHas m r0.id = true
      · rw [if_pos h] at hp; exact hkm p hp
      · rw [if_neg h] at hp
        rcases List.mem_append.mp hp with h2 | h2
        · exact hkm p h2
        · rw [List.mem_singleton.mp h2]
    have hvs' : ∀ p ∈ mergeStep m r0, p.2 ∈ S := by
      intro p hp
      unfold mergeStep at hp
      by_cases h : mapHas m r0.id = true
      · rw [if_pos h] at hp; exact hvs p hp
      · rw [if_neg h] at hp
        rcases List.mem_append.mp hp with h2 | h2
        · exact hvs p h2
        · rw [List.mem_singleton.mp h2]
          exact hrs r0 (List.mem_cons_self r0 rest)
    rcases List.mem_cons.mp hr with rfl | hmem
    · have hin : r ∈ (mergeStep m r).map Prod.snd := by
        unfold mergeStep
        by_cases h : mapHas m r.id = true
        · rw [if_pos h]
          obtain ⟨p, hp, hpid⟩ := List.any_eq_true.mp h
          have hid2 : p.2.id = r.id := by
            rw [← hkm p hp]
            exact of_decide_eq_true hpid
          have hpr : p.2 = r :=
            List.inj_on_of_nodup_map hidS (hvs p hp)
              (hrs r (List.mem_cons_self r rest)) hid2
          exact List.mem_map.mpr ⟨p, hp, hpr⟩
        · rw [if_neg h]
          exact List.mem_map.mpr
            ⟨(r.id, r), List.mem_append.mpr (Or.inr (List.mem_singleton.mpr rfl)), rfl⟩
      obtain ⟨p, hp, hps⟩ := List.mem_map.mp hin
      exact List.mem_map.mpr ⟨p, foldl_mergeStep_superset rest (mergeStep m r) p hp, hps⟩
    · exact ih (mergeStep m r0) hkm' hvs'
        (fun x hx => hrs x (List.mem_cons_of_mem r0 hx)) r hmem

theorem mergeRemoteLedger_props {S : List LedgerEvent} (hidS : IdsNodup S)
    (prev remote : List LedgerEvent) (hidP : IdsNodup prev)
    (hsubP : ∀ y ∈ prev, y ∈ S) (hsubR : ∀ y ∈ remote, y ∈ S) :
    SortedTs (mergeRemoteLedger prev remote) ∧
    IdsNodup (mergeRemoteLedger prev remote) ∧
    (∀ x ∈ mergeRemoteLedger prev remote, x ∈ S) ∧
    (∀ x ∈ prev, x ∈ mergeRemoteLedger prev remote) ∧
    (∀ x ∈ remote, x ∈ mergeRemoteLedger prev remote) := by
  have hkm0 : ∀ p ∈ prev.map (fun e => (e.id, e)), p.1 = p.2.id := by
    intro p hp
    obtain ⟨x, _, rfl⟩ := List.mem_map.mp hp
    rfl
  have hvs0 : ∀ p ∈ prev.map (fun e => (e.id, e)), p.2 ∈ S := by
    intro p hp
    obtain ⟨x, hx, rfl⟩ := List.mem_map.mp hp
    exact hsubP x hx
  have hks0 : ((prev.map (fun e => (e.id, e))).map Prod.fst).Nodup := by
    rw [List.map_map]
    exact hidP
  unfold mergeRemoteLedger
  rw [jsMapOfLedger_eq prev hidP]
  refine ⟨sortTs_sorted _, ?_, ?_, ?_, ?_⟩
  · have hkeys : (((remote.foldl mergeStep (prev.map (fun e => (e.id, e)))).map
        Prod.snd).map (fun e => e.id)) =
        (remote.foldl mergeStep (prev.map (fun e => (e.id, e)))).map Prod.fst := by
      rw [List.map_map]
      exact List.map_congr_left fun p hp =>
        (foldl_mergeStep_keysMatch remote _ hkm0 p hp).symm
    refine idsNodup_of_perm (sortTs_perm _).symm ?_
    unfold IdsNodup
    rw [hkeys]
    exact foldl_mergeStep_keysNodup remote _ hks0
  · intro x hx
    obtain ⟨p, hp, hps⟩ := List.mem_map.mp (mem_sortTs.mp hx)
    rcases foldl_mergeStep_sub remote _ p hp with h1 | h1
    · exact hps ▸ hvs0 p h1
    · exact hps ▸ hsubR p.2 h1.1
  · intro x hx
    refine mem_sortTs.mpr (List.mem_map.mpr ⟨(x.id, x), ?_, rfl⟩)
    exact foldl_mergeStep_superset remote _ (x.id, x) (List.mem_map.mpr ⟨x, hx, rfl⟩)
  · intro x hx
    exact mem_sortTs.mpr (foldl_mergeStep_mem hidS remote _ hkm0 hvs0 hsubR x hx)

/-! ## Running a delivery sequence (claim C2) -/

theorem applyMsg_step {S : List LedgerEvent} (hidS : IdsNodup S)
    (st : List LedgerEvent) (m : SyncMsg)
    (hinv : LedgerInv S st) (hm : ∀ e ∈ msgEvents m, e ∈ S) :
    LedgerInv S (applyMsg st m) ∧ (∀ x ∈ st, x ∈ applyMsg st m) ∧
    (∀ e ∈ msgEvents m, e ∈ applyMsg st m) := by
  obtain ⟨hsort, hid, hsub⟩ := hinv
  cases m with
  | event e =>
    have he : e ∈ S := hm e (List.mem_singleton.mpr rfl)
    refine ⟨⟨applyRemoteEvent_sorted e hsort, applyRemoteEvent_idsNodup hid, ?_⟩,
      fun x hx => applyRemoteEvent_superset e hx, ?_⟩
    · intro x hx
      rcases applyRemoteEvent_sub hx with h1 | h1
      · exact hsub x h1
      · exact h1 ▸ he
    · intro x hx
      rw [List.mem_singleton.mp hx]
      exact applyRemoteEvent_mem hidS hsub he
  | snapshot l =>
    obtain ⟨h1, h2, h3, h4, h5⟩ := mergeRemoteLedger_props hidS st l hid hsub hm
    exact ⟨⟨h1, h2, h3⟩, h4, h5⟩

theorem runAux_props {S : List LedgerEvent} (hidS : IdsNodup S) :
    ∀ (msgs : List SyncMsg) (st : List LedgerEvent), LedgerInv S st →
      (∀ m ∈ msgs, ∀ e ∈ msgEvents m, e ∈ S) →
      LedgerInv S (msgs.foldl applyMsg st) ∧
      (∀ x ∈ st, x ∈ msgs.foldl applyMsg st) := by
  intro msgs
  induction msgs with
  | nil => intro st hinv _; exact ⟨hinv, fun x hx => hx⟩
  | cons m rest ih =>
    intro st hinv hok
    simp only [List.foldl_cons]
    obtain ⟨hinv', hmono, _⟩ :=
      applyMsg_step hidS st m hinv (hok m (List.mem_cons_self m rest))
    obtain ⟨hinvr, hmonor⟩ := ih (applyMsg st m) hinv'
      (fun m' hm' => hok m' (List.mem_cons_of_mem m hm'))
    exact ⟨hinvr, fun x hx => hmonor x (hmono x hx)⟩

theorem runAux_complete {S : List LedgerEvent} (hidS : IdsNodup S) :
    ∀ (msgs : List SyncMsg) (st : List LedgerEvent), LedgerInv S st →
      (∀ m ∈ msgs, ∀ e ∈ msgEvents m, e ∈ S) →
      ∀ m ∈ msgs, ∀ e ∈ msgEvents m, e ∈ msgs.foldl applyMsg st := by
  intro msgs
  induction msgs with
  | nil => intro st _ _ m hm; exact absurd hm (List.not_mem_nil m)
  | cons m0 rest ih =>
    intro st hinv hok m hm e he
    simp only [List.foldl_cons]
    obtain ⟨hinv', hmono, hnew⟩ :=
      applyMsg_step hidS st m0 hinv (hok m0 (List.mem_cons_self m0 rest))
    have hokr : ∀ m' ∈ rest, ∀ e' ∈ msgEvents m', e' ∈ S :=
      fun m' hm' => hok m' (List.mem_cons_of_mem m0 hm')
    rcases List.mem_cons.mp hm with rfl | hmem
    · exact (runAux_props hidS rest (applyMsg st m) hinv' hokr).2 e (hnew e he)
    · exact ih (applyMsg st m0) hinv' hokr m hmem e he

theorem sorted_lt_of_sorted_le_nodup {l : List LedgerEvent}
    (hs : SortedTs l) (hn : TsNodup l) : List.Sorted tsLT l := by
  have hne : l.Pairwise (fun a b => a.ts ≠ b.ts) := by
    have hpw : List.Pairwise (fun a b : Nat => a ≠ b) (l.map fun e => e.ts) := hn
    exact List.pairwise_map.mp hpw
  have hand := List.Pairwise.and hs hne
  exact hand.imp fun hab => Nat.lt_of_le_of_ne hab.1 hab.2

theorem runMsgs_eq_sortTs {S : List LedgerEvent} (msgs : List SyncMsg)
    (hid : IdsNodup S) (hts : TsNodup S) (hdel : Delivers msgs S) :
    runMsgs msgs = sortTs S := by
  obtain ⟨hfrom, hcover⟩ := hdel
  have hinv0 : LedgerInv S [] :=
    ⟨List.sorted_nil, List.nodup_nil, fun e he => absurd he (List.not_mem_nil e)⟩
  obtain ⟨⟨hsorted, hidL, hsubL⟩, _⟩ := runAux_props hid msgs [] hinv0 hfrom
  have hcompl : ∀ e ∈ S, e ∈ runMsgs msgs := by
    intro e he
    obtain ⟨m, hm, hem⟩ := hcover e he
    exact runAux_complete hid msgs [] hinv0 hfrom m hm e hem
  have hLnd : (runMsgs msgs).Nodup := List.Nodup.of_map _ hidL
  have hSnd : S.Nodup := List.Nodup.of_map _ hid
  have hperm : List.Perm (runMsgs msgs) S :=
    (List.perm_ext_iff_of_nodup hLnd hSnd).mpr
      (fun a => ⟨fun h => hsubL a h, fun h => hcompl a h⟩)
  have hperm2 : List.Perm (runMsgs msgs) (sortTs S) :=
    hperm.trans (sortTs_perm S).symm
  have htsL : TsNodup (runMsgs msgs) := ((hperm.map _).nodup_iff).mpr hts
  have htsS : TsNodup (sortTs S) := (((sortTs_perm S).map _).nodup_iff).mpr hts
  exact List.eq_of_perm_of_sorted hperm2
    (sorted_lt_of_sorted_le_nodup hsorted htsL)
    (sorted_lt_of_sorted_le_nodup (sortTs_sorted S) htsS)

/-! ## Theorems for claim C2 -/

/-- C2 is false as stated: the merge sort breaks ties only by arrival
order (the comparator is `a.ts - b.ts`, with no id tiebreak), so two
instances receiving the same two same-timestamp events in opposite
orders converge to different ledger sequences and different projected
occupancies (5 versus 6). -/
theorem C2_counterexample_ts_tie :
    Delivers [SyncMsg.event c2tieIn, SyncMsg.event c2tieSet] [c2tieIn, c2tieSet] ∧
    Delivers [SyncMsg.event c2tieSet, SyncMsg.event c2tieIn] [c2tieIn, c2tieSet] ∧
    IdsNodup [c2tieIn, c2tieSet] ∧
    runMsgs [SyncMsg.event c2tieIn, SyncMsg.event c2tieSet] ≠
      runMsgs [SyncMsg.event c2tieSet, SyncMsg.event c2tieIn] ∧
    computeStateFromLedger
        (runMsgs [SyncMsg.event c2tieIn, SyncMsg.event c2tieSet]) 200 ≠
      computeStateFromLedger
        (runMsgs [SyncMsg.event c2tieSet, SyncMsg.event c2tieIn]) 200 := by
  decide

/-- C2 (amended): for every event set with origin-unique ids *and
pairwise distinct timestamps*, any two delivery sequences of the full
set — any arrival order, any mix of single-event merges and snapshot
merges — leave the two instances with identical ledger sequences and
identical projections. -/
theorem C2_merge_convergence_distinct_ts (S : List LedgerEvent)
    (msgs1 msgs2 : List SyncMsg) (hid : IdsNodup S) (hts : TsNodup S)
    (h1 : Delivers msgs1 S) (h2 : Delivers msgs2 S) :
    runMsgs msgs1 = runMsgs msgs2 ∧
    ∀ d, computeStateFromLedger (runMsgs msgs1) d =
      computeStateFromLedger (runMsgs msgs2) d := by
  have e1 := runMsgs_eq_sortTs msgs1 hid hts h1
  have e2 := runMsgs_eq_sortTs msgs2 hid hts h2
  exact ⟨e1.trans e2.symm, fun d => by rw [e1, e2]⟩

theorem C2_merge_convergence_witness :
    runMsgs [SyncMsg.event c2dA, SyncMsg.event c2dB] =
      runMsgs [SyncMsg.snapshot [c2dB], SyncMsg.event c2dA] ∧
    computeStateFromLedger (runMsgs [SyncMsg.event c2dA, SyncMsg.event c2dB]) 200 =
      computeStateFromLedger (runMsgs [SyncMsg.snapshot [c2dB], SyncMsg.event c2dA]) 200 :=
  ⟨(C2_merge_convergence_distinct_ts [c2dA, c2dB]
      [SyncMsg.event c2dA, SyncMsg.event c2dB]
      [SyncMsg.snapshot [c2dB], SyncMsg.event c2dA]
      (by decide) (by decide) (by decide) (by decide)).1,
   (C2_merge_convergence_distinct_ts [c2dA, c2dB]
      [SyncMsg.event c2dA, SyncMsg.event c2dB]
      [SyncMsg.snapshot [c2dB], SyncMsg.event c2dA]
      (by decide) (by decide) (by decide) (by decide)).2 200⟩

/-! ## Grouping lemmas for the forecast (claim C9) -/

theorem addAll_cons (o : Option (Int × Nat)) (e : HistEntry) (es : List HistEntry) :
    addAll o (e :: es) =
      addAll (some (match o with
        | none => (e.delta, 1)
        | some v => (v.1 + e.delta, v.2 + 1))) es := rfl

theorem lookupGroup_bumpGroup_same (g : List ((Nat × Nat) × (Int × Nat)))
    (k : Nat × Nat) (d : Int) :
    lookupGroup (bumpGroup g k d) k =
      some (match lookupGroup g k with
        | none => (d, 1)
        | some v => (v.1 + d, v.2 + 1)) := by
  induction g with
  | nil => simp [bumpGroup, lookupGroup]
  | cons p rest ih =>
    obtain ⟨k', v⟩ := p
    by_cases h : k' = k
    · subst h
      simp [bumpGroup, lookupGroup]
    · simp [bumpGroup, lookupGroup, h, ih]

theorem lookupGroup_bumpGroup_ne (g : List ((Nat × Nat) × (Int × Nat)))
    {k k' : Nat × Nat} (d : Int) (h : k' ≠ k) :
    lookupGroup (bumpGroup g k' d) k = lookupGroup g k := by
  induction g with
  | nil => simp [bumpGroup, lookupGroup, h]
  | cons p rest ih =>
    obtain ⟨k0, v⟩ := p
    by_cases h0 : k0 = k'
    · subst h0
      simp [bumpGroup, lookupGroup, h]
    · simp [bumpGroup, lookupGroup, h0, ih]

theorem lookup_foldl_bump (l : List HistEntry) :
    ∀ (g : List ((Nat × Nat) × (Int × Nat))) (k : Nat × Nat),
    lookupGroup
        (l.foldl (fun g e => bumpGroup g (jsWeekday e.ts, bucketIdx e.ts) e.delta) g) k =
      addAll (lookupGroup g k)
        (l.filter (fun e => decide ((jsWeekday e.ts, bucketIdx e.ts) = k))) := by
  induction l with
  | nil => intro g k; rfl
  | cons e rest ih =>
    intro g k
    simp only [List.foldl_cons, List.filter_cons]
    by_cases h : (jsWeekday e.ts, bucketIdx e.ts) = k
    · rw [ih, h, lookupGroup_bumpGroup_same,
        if_pos (decide_eq_true (rfl : k = k)), addAll_cons]
    · rw [ih, lookupGroup_bumpGroup_ne _ _ h, if_neg]
      simp [h]

theorem addAll_some (es : List HistEntry) :
    ∀ (s : Int) (c : Nat),
      addAll (some (s, c)) es =
        some (s + (es.map (fun e => e.delta)).sum, c + es.length) := by
  induction es with
  | nil => intro s c; simp [addAll]
  | cons e rest ih =>
    intro s c
    rw [addAll_cons]
    simp only [ih, List.map_cons, List.sum_cons, List.length_cons,
      Option.some.injEq, Prod.mk.injEq]
    constructor
    · omega
    · omega

theorem addAll_none (es : List HistEntry) :
    addAll none es = if es.length = 0 then none
      else some ((es.map (fun e => e.delta)).sum, es.length) := by
  cases es with
  | nil => rfl
  | cons e rest =>
    rw [addAll_cons]
    simp only [addAll_some, List.map_cons, List.sum_cons, List.length_cons,
      Nat.succ_ne_zero, if_false, Option.some.injEq, Prod.mk.injEq]
    exact ⟨trivial, by omega⟩

theorem foldl_add_eq_sum (f : Nat → ℚ) (l : List Nat) :
    ∀ a : ℚ, l.foldl (fun acc i => acc + f i) a = a + (l.map f).sum := by
  induction l with
  | nil => intro a; simp
  | cons i rest ih =>
    intro a
    simp only [List.foldl_cons, List.map_cons, List.sum_cons]
    rw [ih, add_assoc]

theorem foldl_eq_of_body (f g : ℚ → Nat → ℚ) (l : List Nat)
    (h : ∀ acc i, i ∈ l → f acc i = g acc i) : ∀ a, l.foldl f a = l.foldl g a := by
  induction l with
  | nil => intro a; rfl
  | cons i rest ih =>
    intro a
    simp only [List.foldl_cons]
    rw [h a i (List.mem_cons_self i rest)]
    exact ih (fun acc j hj => h acc j (List.mem_cons_of_mem i hj)) _

theorem forecast_lookup_eq (history : List HistEntry) (k : Nat × Nat) (acc : ℚ) :
    (match lookupGroup (buildGroups history) k with
      | some v => acc + (v.1 : ℚ) / (v.2 : ℚ)
      | none => acc) = acc + meanDelta history k := by
  have h := lookup_foldl_bump history [] k
  rw [show lookupGroup ([] : List ((Nat × Nat) × (Int × Nat))) k = none from rfl,
    addAll_none] at h
  unfold meanDelta buildGroups
  by_cases hf : (history.filter
      (fun e => decide ((jsWeekday e.ts, bucketIdx e.ts) = k))).length = 0
  · simp only [h, if_pos hf]
    simp
  · simp only [h, if_neg hf]

/-! ## Theorem for claim C9 -/

/-- C9: `computeForecast` returns `none` exactly on an empty history, and
otherwise equals the spec's formula: the current count plus the sum,
over the next 12 five-minute buckets of the current weekday, of the mean
historical delta of each `(weekday, bucket)` group (empty groups
contribute `0`), rounded to the nearest integer (`⌊x + 1/2⌋`).  The
embedding is a pure function of the history, count and clock, so it
modifies neither the history nor the count. -/
theorem C9_forecast_spec :
    (∀ (history : List HistEntry) (count : Int) (now : Nat),
      computeForecast history count now = forecastSpec history count now) ∧
    (∀ (history : List HistEntry) (count : Int) (now : Nat),
      computeForecast history count now = none ↔ history = []) := by
  constructor
  · intro history count now
    by_cases h : history = []
    · simp only [computeForecast, forecastSpec, if_pos h]
    · simp only [computeForecast, forecastSpec, if_neg h]
      congr 2
      rw [foldl_eq_of_body _
        (fun acc i => acc +
          meanDelta history (jsWeekday now, (now % 1440 / 5 + (i + 1)) % 288))
        (List.range 12) (fun acc i _ => forecast_lookup_eq history _ acc) 0]
      rw [foldl_add_eq_sum (fun i =>
        meanDelta history (jsWeekday now, (now % 1440 / 5 + (i + 1)) % 288))
        (List.range 12) 0]
      rw [zero_add]
  · intro history count now
    unfold computeForecast
    by_cases h : history = []
    · simp [h]
    · simp [h]

end QueueHopper
